import Mathlib

/-!
Shallow embedding of `tbman.py`, a supervisor for TensorBoard child
processes, together with proofs of the specification's claims about it.

The embedding models:
* `_make_logdir` — building a fresh temporary directory of symbolic links;
* `_find_port` — randomized probing for a free TCP port;
* `_Manager` — the instance registry with `launch`, `stop`, `stop_all`,
  `save` and startup replay (`_load`).

Effects on the outside world (temporary directories, spawned processes)
are modelled by an explicit `World` state threaded through the operations.
Randomness is modelled by an oracle stream `ds : Nat → Nat`; the occupancy
of TCP ports on the host is modelled by an oracle `bocc : Nat → Bool`
together with the ports of the manager's own live children, which are
listening once spawned.
-/

namespace Tbman

/-- The candidate link name built by `_make_logdir`: the Python f-string
`f"{path.name}_{count}"`, with `str(count)` rendered by `Nat.repr`. -/
def linkName (base : String) (count : Nat) : String :=
  base ++ "_" ++ Nat.repr count

/-- The two `pathlib.Path` observations the source uses on a source path:
`Path(p).name` (final path component) and `Path(p).absolute()` (absolute
form).  They depend on OS path semantics and the working directory, so the
embedding keeps them abstract. -/
structure PathApi where
  name : String → String
  abs : String → String

/-- A directory entry created by `_make_logdir`: link name and the target
the symbolic link points to. -/
abbrev Link := String × String

/-- The names present in a directory of links. -/
def usedNames (links : List Link) : List String :=
  links.map Prod.fst

/-- The `while (logdir / f"{path.name}_{count}").exists(): count += 1`
loop: starting from `count`, return the first count whose candidate name
is not among `used`.  The loop terminates within `used.length + 1` steps
because candidate names are pairwise distinct (see `freshCount_not_mem`);
the fuel argument makes the recursion structural. -/
def freshCountAux (used : List String) (base : String) : Nat → Nat → Nat
  | 0, count => count
  | fuel + 1, count =>
    if linkName base count ∈ used then freshCountAux used base fuel (count + 1)
    else count

/-- The count chosen by `_make_logdir` for a path with final component
`base`, when the directory already contains the names `used`. -/
def freshCount (used : List String) (base : String) : Nat :=
  freshCountAux used base (used.length + 1) 0

/-- One iteration of the `for path in paths` loop of `_make_logdir`:
create the symbolic link `linkName base count → path.absolute()` where
`count` is the first free one.  `Path.exists` on the fresh temporary
directory is modelled as membership of the name among the links created so
far (the directory starts empty and link targets are assumed to exist, so
`exists()` sees exactly the created links). -/
def addLink (papi : PathApi) (links : List Link) (path : String) : List Link :=
  let base := papi.name path
  let count := freshCount (usedNames links) base
  links ++ [(linkName base count, papi.abs path)]

/-- The links `_make_logdir` creates in the fresh `tempfile.mkdtemp()`
directory, in order of the input paths. -/
def makeLogdirLinks (papi : PathApi) (paths : List String) : List Link :=
  paths.foldl (addLink papi) []

/-- Concrete final-path-component function for plain POSIX paths, used to
instantiate `PathApi` on concrete inputs: the part after the last
separator. -/
def posixName (s : String) : String :=
  (s.data.foldl (fun acc c => if c = '/' then [] else acc ++ [c]) []).asString

/-- A concrete `PathApi` for already-absolute plain POSIX paths:
`Path(p).name` is the final component and `Path(p).absolute()` is `p`
itself. -/
def posixApi : PathApi :=
  { name := posixName, abs := fun s => s }

/-- `random.randint(lo, hi - 1)`: a uniformly random integer in the
half-open range `[lo, hi)`.  The random choice is modelled by reducing the
oracle draw `d` into the range; when `lo < hi` every value of `[lo, hi)`
is reachable and no other.  (For `hi ≤ lo` the Python call raises
`ValueError`; theorems assume `lo < hi`.) -/
def randint (lo hi : Nat) (d : Nat) : Nat :=
  lo + d % (hi - lo)

/-- The `for _ in range(max_attempts)` loop of `_find_port`, probing with
draws `ds i, ds (i+1), …`.  `occ p = true` models `connect_ex` returning
`0` (connection succeeded, port occupied); `occ p = false` models a failed
connection, upon which the port is returned immediately.  `-1` is the
sentinel the source returns when the attempt budget is exhausted. -/
def findPortAux (lo hi : Nat) (occ : Nat → Bool) (ds : Nat → Nat) :
    Nat → Nat → Int
  | 0, _ => -1
  | fuel + 1, i =>
    let port := randint lo hi (ds i)
    if occ port then findPortAux lo hi occ ds fuel (i + 1)
    else (port : Int)

/-- `_find_port(port_lo, port_hi, max_attempts)`. -/
def find_port (lo hi : Nat) (occ : Nat → Bool) (ds : Nat → Nat)
    (max_attempts : Nat) : Int :=
  findPortAux lo hi occ ds max_attempts 0

/-- `_Config`: an ordered list of source paths and a display title. -/
structure Config where
  paths : List String
  title : String
deriving DecidableEq

/-- `_Instance`: the runtime record created at launch time. -/
structure Instance where
  cfg : Config
  ident : Nat
  logdir : String
  port : Nat
deriving DecidableEq

/-- `_TensorBoard`: a registry entry, the instance together with the
handle of its child process (modelled by a pid). -/
structure TensorBoard where
  inst : Instance
  proc : Nat
deriving DecidableEq

/-- `_Manager`'s own state: the identifier counter `_count`, the
configuration fields, and the registry `_tbs`, an insertion-ordered
mapping (Python dict) modelled as an association list. -/
structure Manager where
  count : Nat
  host : String
  port_lo : Nat
  port_hi : Nat
  tbs : List (Nat × TensorBoard)
  tb_path : String
deriving DecidableEq

/-- A directory on disk: its path and the links it contains. -/
structure Dir where
  path : String
  links : List Link
deriving DecidableEq

/-- The outside world: a freshness supply for `tempfile.mkdtemp()`, the
directories on disk, a pid supply, and the running child processes (pid
and argument vector). -/
structure World where
  nextDir : Nat
  dirs : List Dir
  nextPid : Nat
  procs : List (Nat × List String)
deriving DecidableEq

/-- The unique path handed out by the `n`-th call of
`tempfile.mkdtemp()`. -/
def tmpPath (n : Nat) : String :=
  "/tmp/tb" ++ Nat.repr n

/-- `_make_logdir`: create a fresh temporary directory and populate it
with disambiguated links to the paths. -/
def make_logdir (papi : PathApi) (w : World) (paths : List String) :
    String × World :=
  let path := tmpPath w.nextDir
  let d : Dir := { path := path, links := makeLogdirLinks papi paths }
  (path, { w with nextDir := w.nextDir + 1, dirs := w.dirs ++ [d] })

/-- The ports of the manager's live instances. -/
def livePorts (m : Manager) : List Nat :=
  m.tbs.map fun kv => kv.2.inst.port

/-- The port occupancy `connect_ex(("localhost", port))` observes: ports
occupied by unrelated processes (`bocc`) plus the ports of the manager's
own live children, which are listening. -/
def occupied (bocc : Nat → Bool) (m : Manager) (p : Nat) : Bool :=
  bocc p || (livePorts m).contains p

/-- The argument tuple handed to `subprocess.Popen` by `launch`. -/
def tbArgs (m : Manager) (logdir : String) (port : Nat) (title : String) :
    List String :=
  [m.tb_path, "--host", m.host, "--logdir", logdir, "--port",
    Nat.repr port, "--window_title", title]

/-- `_Manager.launch(cfg)`: build the log directory, then look for a free
port; on failure (`port < 0`) print a warning and return with nothing
registered and no process spawned (the directory already exists).  On
success spawn the child, register the instance under the key `_count`
(fresh — all live keys are smaller, so the dict insert appends), and
increment the counter. -/
def launch (papi : PathApi) (bocc : Nat → Bool) (ds : Nat → Nat)
    (m : Manager) (w : World) (cfg : Config) : Manager × World :=
  let lw := make_logdir papi w cfg.paths
  let logdir := lw.1
  let w1 := lw.2
  let port := find_port m.port_lo m.port_hi (occupied bocc m) ds 32
  if port < 0 then (m, w1)
  else
    let p := port.toNat
    let pid := w1.nextPid
    let w2 := { w1 with
      nextPid := pid + 1,
      procs := w1.procs ++ [(pid, tbArgs m logdir p cfg.title)] }
    let inst : Instance :=
      { cfg := cfg, ident := m.count, logdir := logdir, port := p }
    let m2 := { m with
      tbs := m.tbs ++ [(m.count, { inst := inst, proc := pid })],
      count := m.count + 1 }
    (m2, w2)

/-- `_Manager.get_instances()`: the live instances in registry (insertion)
order. -/
def get_instances (m : Manager) : List Instance :=
  m.tbs.map fun kv => kv.2.inst

/-- The data `_Manager.save()` writes: the `(paths, title)` pairs
(`cfg._asdict()`) of the live instances, in registry order.  A `Config`
consists of exactly these two fields, so serialization is the identity on
it. -/
def save (m : Manager) : List Config :=
  m.tbs.map fun kv => kv.2.inst.cfg

/-- `dict.pop(key)`: the value at the key and the dict without it, or
nothing (a `KeyError`) when the key is absent. -/
def popKey (tbs : List (Nat × TensorBoard)) (i : Nat) :
    Option (TensorBoard × List (Nat × TensorBoard)) :=
  match tbs.find? (fun kv => kv.1 == i) with
  | none => none
  | some kv => some (kv.2, tbs.eraseP (fun kv => kv.1 == i))

/-- `shutil.rmtree(path, ignore_errors=True)`: best-effort recursive
deletion, modelled by its success path (the directory is gone
afterwards). -/
def rmtree (w : World) (path : String) : World :=
  { w with dirs := w.dirs.filter fun d => d.path != path }

/-- `proc.terminate(); proc.wait()`: the child process is gone
afterwards. -/
def terminateProc (w : World) (pid : Nat) : World :=
  { w with procs := w.procs.filter fun pr => pr.1 != pid }

/-- `_Manager.stop(instance_id)`: pop the registry entry, terminate the
process, delete the log directory tree.  The `none` result models the
uncaught `KeyError` that `dict.pop` raises when the identifier is unknown;
nothing is mutated in that case. -/
def stop (m : Manager) (w : World) (i : Nat) : Option (Manager × World) :=
  match popKey m.tbs i with
  | none => none
  | some tbrest =>
    let tb := tbrest.1
    let w1 := terminateProc w tb.proc
    let w2 := rmtree w1 tb.inst.logdir
    some ({ m with tbs := tbrest.2 }, w2)

/-- The `for instance_id in instance_ids` loop of `stop_all`, calling
`stop` on each snapshot entry in order; a `KeyError` (impossible from
`stop_all`, see `stopList_from_keys`) would propagate. -/
def stopList : List Nat → Manager → World → Option (Manager × World)
  | [], m, w => some (m, w)
  | i :: rest, m, w =>
    match stop m w i with
    | none => none
    | some mw => stopList rest mw.1 mw.2

/-- `_Manager.stop_all()`: snapshot the identifiers
(`list(self._tbs.keys())`), then stop each in snapshot order. -/
def stop_all (m : Manager) (w : World) : Option (Manager × World) :=
  stopList (m.tbs.map Prod.fst) m w

/-- `_Manager.__init__` before `_load` runs: counter at zero, empty
registry. -/
def initManager (host : String) (lo hi : Nat) (tbp : String) : Manager :=
  { count := 0, host := host, port_lo := lo, port_hi := hi, tbs := [],
    tb_path := tbp }

/-- The `for item in data: self.launch(_Config(**item))` loop of
`_Manager._load`: launch each persisted config in order.  Each launch
draws fresh randomness, modelled by the stream-of-streams `dss`. -/
def replay (papi : PathApi) (bocc : Nat → Bool) (dss : Nat → Nat → Nat) :
    List Config → Nat → Manager × World → Manager × World
  | [], _, mw => mw
  | cfg :: rest, i, mw =>
    replay papi bocc dss rest (i + 1) (launch papi bocc (dss i) mw.1 mw.2 cfg)

/-- `_Manager._load`: an absent backing file means nothing to do;
otherwise replay the parsed configs.  (An unparsable file makes the whole
process exit, out of scope of the round-trip claims.) -/
def loadFile (papi : PathApi) (bocc : Nat → Bool) (dss : Nat → Nat → Nat)
    (file : Option (List Config)) (mw : Manager × World) : Manager × World :=
  match file with
  | none => mw
  | some data => replay papi bocc dss data 0 mw

/-- Whether the port allocation inside `launch` succeeds from manager
state `m` with draws `ds`. -/
def launchOkB (bocc : Nat → Bool) (ds : Nat → Nat) (m : Manager) : Bool :=
  !(find_port m.port_lo m.port_hi (occupied bocc m) ds 32 < 0)

/-- Whether every launch performed while replaying `data` succeeds. -/
def replayOk (papi : PathApi) (bocc : Nat → Bool) (dss : Nat → Nat → Nat) :
    List Config → Nat → Manager × World → Bool
  | [], _, _ => true
  | cfg :: rest, i, mw =>
    launchOkB bocc (dss i) mw.1 &&
      replayOk papi bocc dss rest (i + 1)
        (launch papi bocc (dss i) mw.1 mw.2 cfg)

/-- The specification's description of the link-building loop, as amended:
for each source path in order, the candidate names are `name_0`, `name_1`,
… and the first one not already present in the directory is used; the link
points to the absolute form of the source path.  `existing` is the
directory content, `created` the links attributed to the remaining
paths. -/
def LinksBuilt (papi : PathApi) :
    List String → List Link → List Link → Prop
  | [], _, created => created = []
  | p :: rest, existing, created =>
    ∃ c created',
      (∀ k < c, linkName (papi.name p) k ∈ usedNames existing) ∧
      linkName (papi.name p) c ∉ usedNames existing ∧
      created = (linkName (papi.name p) c, papi.abs p) :: created' ∧
      LinksBuilt papi rest
        (existing ++ [(linkName (papi.name p) c, papi.abs p)]) created'

/-- One observable transition of the supervisor: a launch (with arbitrary
environment), a successful stop, or a stop-all.  `save` does not change
the state. -/
inductive Step (papi : PathApi) : Manager × World → Manager × World → Prop
  | launch (bocc : Nat → Bool) (ds : Nat → Nat) (cfg : Config)
      (mw : Manager × World) :
      Step papi mw (launch papi bocc ds mw.1 mw.2 cfg)
  | stop (i : Nat) (mw mw' : Manager × World) :
      stop mw.1 mw.2 i = some mw' → Step papi mw mw'
  | stopAll (mw mw' : Manager × World) :
      stop_all mw.1 mw.2 = some mw' → Step papi mw mw'

/-- States reachable within one supervisor run, starting from a freshly
constructed manager (counter zero, empty registry) in an arbitrary initial
world. -/
def Reachable (papi : PathApi) (host : String) (lo hi : Nat) (tbp : String)
    (w0 : World) (mw : Manager × World) : Prop :=
  Relation.ReflTransGen (Step papi) (initManager host lo hi tbp, w0) mw

/-- The registry invariant maintained by the manager: every entry is
keyed by its instance's identifier, identifiers are below the counter,
keys are pairwise distinct (it is a dict), and live ports are pairwise
distinct. -/
def Inv (m : Manager) : Prop :=
  (∀ kv ∈ m.tbs, kv.2.inst.ident = kv.1 ∧ kv.1 < m.count) ∧
    (m.tbs.map Prod.fst).Nodup ∧ (livePorts m).Nodup

/-- Concrete fixture: a host string. -/
def host0 : String := "localhost"

/-- Concrete fixture: a path to the tensorboard binary. -/
def tbp0 : String := "tensorboard"

/-- Concrete fixture: a config with one source path. -/
def cfg0 : Config :=
  { paths := ["/a/run"], title := "t" }

/-- Concrete fixture: an empty initial world. -/
def w0 : World :=
  { nextDir := 0, dirs := [], nextPid := 0, procs := [] }

/-- Concrete fixture: a freshly constructed manager over ports
[8000, 9000). -/
def m0 : Manager :=
  initManager host0 8000 9000 tbp0

/-- Concrete fixture: no port occupied by unrelated processes. -/
def boccFree : Nat → Bool := fun _ => false

/-- Concrete fixture: every port occupied. -/
def boccAll : Nat → Bool := fun _ => true

/-- Concrete fixture: only port 8000 occupied. -/
def occ8000 : Nat → Bool := fun p => p == 8000

/-- Concrete fixture: a constant-zero draw stream. -/
def ds0 : Nat → Nat := fun _ => 0

/-- Concrete fixture: the identity draw stream. -/
def dsId : Nat → Nat := fun i => i

/-- Concrete fixture: constant-zero draw streams for replay. -/
def dss0 : Nat → Nat → Nat := fun _ _ => 0

/-- Concrete fixture: the manager after one successful launch of `cfg0`
from `m0`. -/
def m1 : Manager :=
  (launch posixApi boccFree ds0 m0 w0 cfg0).1

/-- The value of a decimal digit character. -/
def digitVal (c : Char) : Nat :=
  c.toNat - 48

/-- Right-fold step reading a digit string back into a value: the pair
carries (value so far, weight of the next position). -/
def prStep (c : Char) (vp : Nat × Nat) : Nat × Nat :=
  (digitVal c * vp.2 + vp.1, 10 * vp.2)

/-- Read a most-significant-first digit string back into its value and
total weight. -/
def parseR (cs : List Char) : Nat × Nat :=
  cs.foldr prStep (0, 1)

/-! ### Injectivity of the decimal rendering, and freshness of link names -/

theorem digitVal_digitChar : ∀ d, d < 10 → digitVal (Nat.digitChar d) = d := by
  decide

theorem parseR_cons (c : Char) (cs : List Char) :
    parseR (c :: cs) = (digitVal c * (parseR cs).2 + (parseR cs).1, 10 * (parseR cs).2) := by
  rfl

theorem parseR_toDigitsCore :
    ∀ (fuel n : Nat) (ds : List Char), n < 10 ^ fuel →
      (parseR (Nat.toDigitsCore 10 fuel n ds)).1 = n * (parseR ds).2 + (parseR ds).1 := by
  intro fuel
  induction fuel with
  | zero =>
    intro n ds h
    have hn : n = 0 := by simpa using h
    subst hn
    simp [Nat.toDigitsCore]
  | succ fuel ih =>
    intro n ds h
    by_cases h0 : n / 10 = 0
    · have hstep : Nat.toDigitsCore 10 (fuel + 1) n ds = Nat.digitChar (n % 10) :: ds := by
        simp [Nat.toDigitsCore, h0]
      rw [hstep, parseR_cons]
      have hd : digitVal (Nat.digitChar (n % 10)) = n % 10 :=
        digitVal_digitChar (n % 10) (Nat.mod_lt n (by norm_num))
      have hn : n % 10 = n := by
        have := Nat.div_add_mod n 10
        omega
      rw [hd, hn]
    · have hstep : Nat.toDigitsCore 10 (fuel + 1) n ds
          = Nat.toDigitsCore 10 fuel (n / 10) (Nat.digitChar (n % 10) :: ds) := by
        simp [Nat.toDigitsCore, h0]
      have hlt : n / 10 < 10 ^ fuel := by
        rw [Nat.div_lt_iff_lt_mul (by norm_num)]
        calc n < 10 ^ (fuel + 1) := h
        _ = 10 ^ fuel * 10 := by ring
      rw [hstep, ih (n / 10) (Nat.digitChar (n % 10) :: ds) hlt, parseR_cons]
      have hd : digitVal (Nat.digitChar (n % 10)) = n % 10 :=
        digitVal_digitChar (n % 10) (Nat.mod_lt n (by norm_num))
      simp only [hd]
      have := Nat.div_add_mod n 10
      nlinarith [Nat.div_add_mod n 10]

theorem parseR_toDigits (n : Nat) : (parseR (Nat.toDigits 10 n)).1 = n := by
  have hlt : n < 10 ^ (n + 1) := by
    have := Nat.lt_pow_self (show (1 : Nat) < 10 by norm_num) (n + 1)
    omega
  have := parseR_toDigitsCore (n + 1) n [] hlt
  simpa [Nat.toDigits, parseR] using this

theorem repr_injective : Function.Injective Nat.repr := by
  intro a b h
  have hdata : Nat.toDigits 10 a = Nat.toDigits 10 b := congrArg String.data h
  have := parseR_toDigits a
  rw [hdata, parseR_toDigits b] at this
  exact this.symm

theorem linkName_injective (base : String) : Function.Injective (linkName base) := by
  intro c1 c2 h
  have h2 := congrArg String.data h
  simp only [linkName, String.data_append, List.append_assoc] at h2
  have h3 : (Nat.repr c1).data = (Nat.repr c2).data :=
    List.append_cancel_left (List.append_cancel_left h2)
  exact repr_injective (String.ext h3)

theorem exists_fresh (used : List String) (base : String) :
    ∃ c, c < used.length + 1 ∧ linkName base c ∉ used := by
  by_contra hc
  push_neg at hc
  have hsub : (Finset.range (used.length + 1)).image (linkName base) ⊆ used.toFinset := by
    intro x hx
    rcases Finset.mem_image.mp hx with ⟨c, hc1, rfl⟩
    exact List.mem_toFinset.mpr (hc c (Finset.mem_range.mp hc1))
  have hcard := Finset.card_le_card hsub
  rw [Finset.card_image_of_injective _ (linkName_injective base), Finset.card_range] at hcard
  have hlen := used.toFinset_card_le
  omega

theorem freshCountAux_not_mem (used : List String) (base : String) :
    ∀ fuel count, (∃ c, count ≤ c ∧ c < count + fuel ∧ linkName base c ∉ used) →
      linkName base (freshCountAux used base fuel count) ∉ used := by
  intro fuel
  induction fuel with
  | zero =>
    intro count h
    rcases h with ⟨c, h1, h2, _⟩
    omega
  | succ fuel ih =>
    intro count h
    rcases h with ⟨c, h1, h2, h3⟩
    rw [freshCountAux]
    by_cases hmem : linkName base count ∈ used
    · rw [if_pos hmem]
      apply ih
      have hne : c ≠ count := by
        intro he
        exact h3 (he ▸ hmem)
      exact ⟨c, by omega, by omega, h3⟩
    · rw [if_neg hmem]
      exact hmem

theorem freshCountAux_min (used : List String) (base : String) :
    ∀ fuel count k, count ≤ k → k < freshCountAux used base fuel count →
      linkName base k ∈ used := by
  intro fuel
  induction fuel with
  | zero =>
    intro count k hk hlt
    rw [freshCountAux] at hlt
    omega
  | succ fuel ih =>
    intro count k hk hlt
    rw [freshCountAux] at hlt
    by_cases hmem : linkName base count ∈ used
    · rw [if_pos hmem] at hlt
      rcases Nat.eq_or_lt_of_le hk with rfl | hk'
      · exact hmem
      · exact ih (count + 1) k hk' hlt
    · rw [if_neg hmem] at hlt
      omega

theorem freshCount_not_mem (used : List String) (base : String) :
    linkName base (freshCount used base) ∉ used := by
  apply freshCountAux_not_mem
  rcases exists_fresh used base with ⟨c, hc1, hc2⟩
  exact ⟨c, Nat.zero_le c, by omega, hc2⟩

theorem freshCount_min (used : List String) (base : String) :
    ∀ k < freshCount used base, linkName base k ∈ used := by
  intro k hk
  exact freshCountAux_min used base (used.length + 1) 0 k (Nat.zero_le k) hk

/-! ### The link-building loop of `_make_logdir` -/

theorem addLink_eq (papi : PathApi) (links : List Link) (p : String) :
    addLink papi links p =
      links ++ [(linkName (papi.name p) (freshCount (usedNames links) (papi.name p)),
        papi.abs p)] :=
  rfl

theorem usedNames_append (l1 l2 : List Link) :
    usedNames (l1 ++ l2) = usedNames l1 ++ usedNames l2 := by
  simp [usedNames]

theorem foldl_addLink_built (papi : PathApi) :
    ∀ (paths : List String) (acc : List Link), ∃ out,
      paths.foldl (addLink papi) acc = acc ++ out ∧ LinksBuilt papi paths acc out := by
  intro paths
  induction paths with
  | nil =>
    intro acc
    exact ⟨[], by simp, by simp [LinksBuilt]⟩
  | cons p rest ih =>
    intro acc
    rcases ih (addLink papi acc p) with ⟨out', hfold, hbuilt⟩
    refine ⟨(linkName (papi.name p) (freshCount (usedNames acc) (papi.name p)),
      papi.abs p) :: out', ?_, ?_⟩
    · rw [List.foldl_cons, hfold, addLink_eq]
      simp
    · simp only [LinksBuilt]
      refine ⟨freshCount (usedNames acc) (papi.name p), out', ?_, ?_, rfl, ?_⟩
      · intro k hk
        exact freshCount_min _ _ k hk
      · exact freshCount_not_mem _ _
      · exact (addLink_eq papi acc p) ▸ hbuilt

theorem foldl_addLink_length (papi : PathApi) :
    ∀ (paths : List String) (acc : List Link),
      (paths.foldl (addLink papi) acc).length = acc.length + paths.length := by
  intro paths
  induction paths with
  | nil => intro acc; simp
  | cons p rest ih =>
    intro acc
    rw [List.foldl_cons, ih (addLink papi acc p), addLink_eq]
    simp
    omega

theorem foldl_addLink_snd (papi : PathApi) :
    ∀ (paths : List String) (acc : List Link),
      (paths.foldl (addLink papi) acc).map Prod.snd
        = acc.map Prod.snd ++ paths.map papi.abs := by
  intro paths
  induction paths with
  | nil => intro acc; simp
  | cons p rest ih =>
    intro acc
    rw [List.foldl_cons, ih (addLink papi acc p), addLink_eq]
    simp

theorem foldl_addLink_nodup (papi : PathApi) :
    ∀ (paths : List String) (acc : List Link),
      (usedNames acc).Nodup → (usedNames (paths.foldl (addLink papi) acc)).Nodup := by
  intro paths
  induction paths with
  | nil => intro acc h; simpa using h
  | cons p rest ih =>
    intro acc h
    rw [List.foldl_cons]
    apply ih
    rw [addLink_eq, usedNames_append]
    simp only [usedNames, List.map_cons, List.map_nil]
    rw [List.nodup_append]
    refine ⟨h, List.nodup_singleton _, ?_⟩
    intro a ha hb
    simp only [List.mem_singleton] at hb
    subst hb
    exact freshCount_not_mem (usedNames acc) (papi.name p) ha

/-- C2 (counterexample): launching with the single source path `/a/run`
into a fresh (empty) directory creates a link named `run_0`, not `run`,
although no link named `run` exists — so the suffix is appended even
without a collision, contradicting the claim that a numeric suffix is
appended only if a link with the bare candidate name already exists. -/
theorem logdir_naming_counterexample :
    posixName ("/a/run") = "run" ∧
    usedNames (makeLogdirLinks posixApi ["/a/run"]) = ["run_0"] ∧
    ("run_0" : String) ≠ "run" := by
  refine ⟨by decide, by decide, by decide⟩

/-- C2 (amended): for every ordered sequence of source paths, the
candidate link names are `name_0`, `name_1`, … derived from the path's
final component; the first candidate not already present in the directory
is used (equivalently: the suffix increments exactly while the candidate
name already exists), and the link created at that name points to the
absolute form of the source path. -/
theorem logdir_link_naming (papi : PathApi) (paths : List String) :
    LinksBuilt papi paths [] (makeLogdirLinks papi paths) := by
  rcases foldl_addLink_built papi paths [] with ⟨out, hfold, hbuilt⟩
  have hout : makeLogdirLinks papi paths = out := by
    simpa [makeLogdirLinks] using hfold
  rw [hout]
  exact hbuilt

/-- C3: for every `Config` with `N` source paths, the produced log
directory contains exactly `N` links, each resolving to the absolute path
of the corresponding source (in order), and no two source paths collide on
the same link name — even when paths share the same final component. -/
theorem logdir_links_complete (papi : PathApi) (paths : List String) :
    (makeLogdirLinks papi paths).length = paths.length ∧
    (makeLogdirLinks papi paths).map Prod.snd = paths.map papi.abs ∧
    (usedNames (makeLogdirLinks papi paths)).Nodup := by
  refine ⟨?_, ?_, ?_⟩
  · simpa [makeLogdirLinks] using foldl_addLink_length papi paths []
  · simpa [makeLogdirLinks] using foldl_addLink_snd papi paths []
  · exact foldl_addLink_nodup papi paths [] (by simp [usedNames])

/-! ### The port-probing loop of `_find_port` -/

theorem randint_range (lo hi d : Nat) (h : lo < hi) :
    lo ≤ randint lo hi d ∧ randint lo hi d < hi := by
  unfold randint
  have := Nat.mod_lt d (show 0 < hi - lo by omega)
  omega

theorem findPortAux_eq_neg_one (lo hi : Nat) (occ : Nat → Bool) (ds : Nat → Nat) :
    ∀ fuel i, (findPortAux lo hi occ ds fuel i = -1 ↔
      ∀ j, j < fuel → occ (randint lo hi (ds (i + j))) = true) := by
  intro fuel
  induction fuel with
  | zero =>
    intro i
    simp [findPortAux]
  | succ fuel ih =>
    intro i
    rw [findPortAux]
    by_cases hocc : occ (randint lo hi (ds i)) = true
    · simp only [hocc, if_true]
      constructor
      · intro h j hj
        cases j with
        | zero => simpa using hocc
        | succ j =>
          have := (ih (i + 1)).mp h j (by omega)
          have hidx : i + 1 + j = i + (j + 1) := by omega
          rwa [hidx] at this
      · intro h
        apply (ih (i + 1)).mpr
        intro j hj
        have := h (j + 1) (by omega)
        have hidx : i + (j + 1) = i + 1 + j := by omega
        rwa [hidx] at this
    · simp only [hocc, Bool.false_eq_true, if_false]
      constructor
      · intro h
        exfalso
        omega
      · intro h
        exact absurd (h 0 (by omega)) (by simpa using hocc)

theorem findPortAux_success (lo hi : Nat) (occ : Nat → Bool) (ds : Nat → Nat) :
    ∀ fuel i, 0 ≤ findPortAux lo hi occ ds fuel i →
      ∃ j, j < fuel ∧
        (findPortAux lo hi occ ds fuel i).toNat = randint lo hi (ds (i + j)) ∧
        occ (randint lo hi (ds (i + j))) = false ∧
        ∀ j', j' < j → occ (randint lo hi (ds (i + j'))) = true := by
  intro fuel
  induction fuel with
  | zero =>
    intro i h
    rw [findPortAux] at h
    omega
  | succ fuel ih =>
    intro i h
    rw [findPortAux] at h ⊢
    by_cases hocc : occ (randint lo hi (ds i)) = true
    · simp only [hocc, if_true] at h ⊢
      rcases ih (i + 1) h with ⟨j, hj, heq, hfree, hmin⟩
      refine ⟨j + 1, by omega, ?_, ?_, ?_⟩
      · have hidx : i + 1 + j = i + (j + 1) := by omega
        rwa [hidx] at heq
      · have hidx : i + 1 + j = i + (j + 1) := by omega
        rwa [hidx] at hfree
      · intro j' hj'
        cases j' with
        | zero => simpa using hocc
        | succ j' =>
          have := hmin j' (by omega)
          have hidx : i + 1 + j' = i + (j' + 1) := by omega
          rwa [hidx] at this
    · simp only [hocc, Bool.false_eq_true, if_false]
      refine ⟨0, by omega, by simp, ?_, by omega⟩
      simpa using hocc

theorem find_port_free (lo hi : Nat) (occ : Nat → Bool) (ds : Nat → Nat)
    (k : Nat) (h : 0 ≤ find_port lo hi occ ds k) :
    occ ((find_port lo hi occ ds k).toNat) = false := by
  rcases findPortAux_success lo hi occ ds k 0 h with ⟨j, _, heq, hfree, _⟩
  rw [find_port, heq]
  exact hfree

/-- C4: `find_port(low, high, max_attempts)` performs at most
`max_attempts` probes, each on an integer of the half-open range
`[low, high)` chosen from the random draws; a probe whose connection
fails (`occ = false`) is returned immediately — it is the first such probe
— and if every probe within the budget connects, the function reports
`NotFound` (`-1`). -/
theorem find_port_contract (lo hi : Nat) (occ : Nat → Bool) (ds : Nat → Nat)
    (max_attempts : Nat) (h : lo < hi) :
    (find_port lo hi occ ds max_attempts = -1 ↔
      ∀ i, i < max_attempts → occ (randint lo hi (ds i)) = true) ∧
    (0 ≤ find_port lo hi occ ds max_attempts →
      lo ≤ (find_port lo hi occ ds max_attempts).toNat ∧
      (find_port lo hi occ ds max_attempts).toNat < hi ∧
      occ ((find_port lo hi occ ds max_attempts).toNat) = false ∧
      ∃ i, i < max_attempts ∧
        (find_port lo hi occ ds max_attempts).toNat = randint lo hi (ds i) ∧
        ∀ j, j < i → occ (randint lo hi (ds j)) = true) := by
  constructor
  · have := findPortAux_eq_neg_one lo hi occ ds max_attempts 0
    simpa [find_port] using this
  · intro hpos
    rcases findPortAux_success lo hi occ ds max_attempts 0 hpos
      with ⟨j, hj, heq, hfree, hmin⟩
    simp only [Nat.zero_add] at heq hfree hmin
    have hrange := randint_range lo hi (ds j) h
    refine ⟨?_, ?_, find_port_free lo hi occ ds max_attempts hpos, j, hj, ?_, ?_⟩
    · rw [find_port, heq]
      exact hrange.1
    · rw [find_port, heq]
      exact hrange.2
    · rw [find_port, heq]
    · intro j' hj'
      simpa using hmin j' hj'

/-- Witness for `find_port_contract`: over the range `[8000, 8002)` with
only port 8000 occupied and the identity draw stream, the contract holds
concretely (the probe at attempt 1 returns the free port 8001). -/
theorem find_port_contract_witness :
    (8000 : Nat) < 8002 ∧
    ((find_port 8000 8002 occ8000 dsId 32 = -1 ↔
      ∀ i, i < 32 → occ8000 (randint 8000 8002 (dsId i)) = true) ∧
    (0 ≤ find_port 8000 8002 occ8000 dsId 32 →
      8000 ≤ (find_port 8000 8002 occ8000 dsId 32).toNat ∧
      (find_port 8000 8002 occ8000 dsId 32).toNat < 8002 ∧
      occ8000 ((find_port 8000 8002 occ8000 dsId 32).toNat) = false ∧
      ∃ i, i < 32 ∧
        (find_port 8000 8002 occ8000 dsId 32).toNat = randint 8000 8002 (dsId i) ∧
        ∀ j, j < i → occ8000 (randint 8000 8002 (dsId j)) = true)) :=
  ⟨by decide, find_port_contract 8000 8002 occ8000 dsId 32 (by decide)⟩

/-! ### Unfolding equations and invariants of the manager -/

theorem launch_eq_fail (papi : PathApi) (bocc : Nat → Bool) (ds : Nat → Nat)
    (m : Manager) (w : World) (cfg : Config)
    (h : find_port m.port_lo m.port_hi (occupied bocc m) ds 32 < 0) :
    launch papi bocc ds m w cfg = (m, (make_logdir papi w cfg.paths).2) := by
  simp [launch, h]

theorem launch_eq_succ (papi : PathApi) (bocc : Nat → Bool) (ds : Nat → Nat)
    (m : Manager) (w : World) (cfg : Config)
    (h : ¬ find_port m.port_lo m.port_hi (occupied bocc m) ds 32 < 0) :
    launch papi bocc ds m w cfg =
      ({ m with
         tbs := m.tbs ++ [(m.count,
           { inst := { cfg := cfg,
                       ident := m.count,
                       logdir := (make_logdir papi w cfg.paths).1,
                       port := (find_port m.port_lo m.port_hi
                         (occupied bocc m) ds 32).toNat },
             proc := (make_logdir papi w cfg.paths).2.nextPid })],
         count := m.count + 1 },
       { (make_logdir papi w cfg.paths).2 with
         nextPid := (make_logdir papi w cfg.paths).2.nextPid + 1,
         procs := (make_logdir papi w cfg.paths).2.procs ++
           [((make_logdir papi w cfg.paths).2.nextPid,
             tbArgs m (make_logdir papi w cfg.paths).1
               (find_port m.port_lo m.port_hi (occupied bocc m) ds 32).toNat
               cfg.title)] }) := by
  simp [launch, h]

theorem inv_init (host : String) (lo hi : Nat) (tbp : String) :
    Inv (initManager host lo hi tbp) := by
  refine ⟨?_, ?_, ?_⟩
  · intro kv hkv
    simp [initManager] at hkv
  · simp [initManager]
  · simp [initManager, livePorts]

theorem not_mem_livePorts_of_free (bocc : Nat → Bool) (m : Manager) (p : Nat)
    (h : occupied bocc m p = false) : p ∉ livePorts m := by
  intro hmem
  simp only [occupied, Bool.or_eq_false_iff, List.contains, List.elem_eq_mem,
    decide_eq_false_iff_not] at h
  exact h.2 hmem

theorem launch_count_fail (papi : PathApi) (bocc : Nat → Bool) (ds : Nat → Nat)
    (m : Manager) (w : World) (cfg : Config)
    (h : find_port m.port_lo m.port_hi (occupied bocc m) ds 32 < 0) :
    (launch papi bocc ds m w cfg).1.count = m.count := by
  simp [launch, h]

theorem launch_count_succ (papi : PathApi) (bocc : Nat → Bool) (ds : Nat → Nat)
    (m : Manager) (w : World) (cfg : Config)
    (h : ¬ find_port m.port_lo m.port_hi (occupied bocc m) ds 32 < 0) :
    (launch papi bocc ds m w cfg).1.count = m.count + 1 := by
  simp [launch, h]

theorem launch_tbs_succ (papi : PathApi) (bocc : Nat → Bool) (ds : Nat → Nat)
    (m : Manager) (w : World) (cfg : Config)
    (h : ¬ find_port m.port_lo m.port_hi (occupied bocc m) ds 32 < 0) :
    (launch papi bocc ds m w cfg).1.tbs =
      m.tbs ++ [(m.count,
        { inst := { cfg := cfg,
                    ident := m.count,
                    logdir := (make_logdir papi w cfg.paths).1,
                    port := (find_port m.port_lo m.port_hi
                      (occupied bocc m) ds 32).toNat },
          proc := (make_logdir papi w cfg.paths).2.nextPid })] := by
  simp [launch, h]

theorem inv_launch (papi : PathApi) (bocc : Nat → Bool) (ds : Nat → Nat)
    (m : Manager) (w : World) (cfg : Config) (hm : Inv m) :
    Inv (launch papi bocc ds m w cfg).1 := by
  by_cases h : find_port m.port_lo m.port_hi (occupied bocc m) ds 32 < 0
  · rw [launch_eq_fail papi bocc ds m w cfg h]
    exact hm
  · obtain ⟨h1, h2, h3⟩ := hm
    have hfp : 0 ≤ find_port m.port_lo m.port_hi (occupied bocc m) ds 32 := by omega
    have hfree := find_port_free _ _ _ _ _ hfp
    have hnotmem :=
      not_mem_livePorts_of_free bocc m
        ((find_port m.port_lo m.port_hi (occupied bocc m) ds 32).toNat) hfree
    have htbs := launch_tbs_succ papi bocc ds m w cfg h
    have hcnt := launch_count_succ papi bocc ds m w cfg h
    refine ⟨?_, ?_, ?_⟩
    · intro kv hkv
      rw [htbs] at hkv
      rw [hcnt]
      simp only [List.mem_append, List.mem_singleton] at hkv
      rcases hkv with hkv | rfl
      · have := h1 kv hkv
        exact ⟨this.1, by omega⟩
      · exact ⟨rfl, by omega⟩
    · rw [htbs]
      simp only [List.map_append, List.map_cons, List.map_nil]
      rw [List.nodup_append]
      refine ⟨h2, List.nodup_singleton _, ?_⟩
      intro a ha hb
      simp only [List.mem_singleton] at hb
      subst hb
      rcases List.mem_map.mp ha with ⟨kv, hkv, hfst⟩
      have := (h1 kv hkv).2
      omega
    · show (List.map (fun kv => kv.2.inst.port) (launch papi bocc ds m w cfg).1.tbs).Nodup
      rw [htbs]
      simp only [List.map_append, List.map_cons, List.map_nil]
      rw [List.nodup_append]
      refine ⟨h3, List.nodup_singleton _, ?_⟩
      intro a ha hb
      simp only [List.mem_singleton] at hb
      subst hb
      exact hnotmem ha

theorem popKey_some (tbs : List (Nat × TensorBoard)) (i : Nat)
    (tbrest : TensorBoard × List (Nat × TensorBoard))
    (h : popKey tbs i = some tbrest) :
    ∃ kv, tbs.find? (fun kv => kv.1 == i) = some kv ∧ tbrest.1 = kv.2 ∧
      tbrest.2 = tbs.eraseP (fun kv => kv.1 == i) := by
  unfold popKey at h
  cases hf : tbs.find? (fun kv => kv.1 == i) with
  | none =>
    rw [hf] at h
    exact absurd h (by simp)
  | some kv =>
    rw [hf] at h
    have heq := Option.some.inj h
    exact ⟨kv, rfl, congrArg Prod.fst heq.symm, congrArg Prod.snd heq.symm⟩

theorem stop_elim (m : Manager) (w : World) (i : Nat) (mw' : Manager × World)
    (h : stop m w i = some mw') :
    ∃ tb : TensorBoard,
      mw'.1 = { m with tbs := m.tbs.eraseP (fun kv => kv.1 == i) } ∧
      mw'.2 = rmtree (terminateProc w tb.proc) tb.inst.logdir := by
  unfold stop at h
  cases hp : popKey m.tbs i with
  | none =>
    rw [hp] at h
    exact absurd h (by simp)
  | some tbrest =>
    rw [hp] at h
    rcases popKey_some m.tbs i tbrest hp with ⟨kv, _, htb, hrest⟩
    have heq := Option.some.inj h
    refine ⟨tbrest.1, ?_, ?_⟩
    · rw [← heq, hrest]
    · rw [← heq]

theorem inv_stop (m : Manager) (w : World) (i : Nat) (mw' : Manager × World)
    (h : stop m w i = some mw') (hm : Inv m) : Inv mw'.1 := by
  rcases stop_elim m w i mw' h with ⟨tb, hm', _⟩
  obtain ⟨h1, h2, h3⟩ := hm
  have hsub : (m.tbs.eraseP (fun kv => kv.1 == i)).Sublist m.tbs :=
    List.eraseP_sublist m.tbs
  rw [hm']
  refine ⟨?_, ?_, ?_⟩
  · intro kv hkv
    exact h1 kv (hsub.subset hkv)
  · exact h2.sublist (hsub.map Prod.fst)
  · show (List.map (fun kv => kv.2.inst.port)
      (m.tbs.eraseP (fun kv => kv.1 == i))).Nodup
    exact h3.sublist (hsub.map fun kv => kv.2.inst.port)

theorem stop_count (m : Manager) (w : World) (i : Nat) (mw' : Manager × World)
    (h : stop m w i = some mw') : mw'.1.count = m.count := by
  rcases stop_elim m w i mw' h with ⟨tb, hm', _⟩
  rw [hm']

theorem stop_dirs_sublist (m : Manager) (w : World) (i : Nat)
    (mw' : Manager × World) (h : stop m w i = some mw') :
    mw'.2.dirs.Sublist w.dirs := by
  rcases stop_elim m w i mw' h with ⟨tb, _, hw'⟩
  rw [hw']
  simp only [rmtree, terminateProc]
  exact List.filter_sublist _

theorem stopList_elim :
    ∀ (ids : List Nat) (m : Manager) (w : World) (mw' : Manager × World),
      stopList ids m w = some mw' →
      (Inv m → Inv mw'.1) ∧ mw'.1.count = m.count ∧ mw'.2.dirs.Sublist w.dirs := by
  intro ids
  induction ids with
  | nil =>
    intro m w mw' h
    rw [stopList] at h
    have heq := Option.some.inj h
    rw [← heq]
    exact ⟨fun hm => hm, rfl, List.Sublist.refl _⟩
  | cons i rest ih =>
    intro m w mw' h
    rw [stopList] at h
    cases hs : stop m w i with
    | none =>
      rw [hs] at h
      exact absurd h (by simp)
    | some mw1 =>
      rw [hs] at h
      rcases ih mw1.1 mw1.2 mw' h with ⟨hi, hc, hd⟩
      refine ⟨?_, ?_, ?_⟩
      · intro hm
        exact hi (inv_stop m w i mw1 hs hm)
      · rw [hc, stop_count m w i mw1 hs]
      · exact hd.trans (stop_dirs_sublist m w i mw1 hs)

theorem inv_step (papi : PathApi) (mw mw' : Manager × World)
    (h : Step papi mw mw') (hm : Inv mw.1) : Inv mw'.1 := by
  cases h with
  | launch bocc ds cfg mw => exact inv_launch papi bocc ds mw.1 mw.2 cfg hm
  | stop i mw mw' hs => exact inv_stop mw.1 mw.2 i mw' hs hm
  | stopAll mw mw' hs => exact (stopList_elim _ mw.1 mw.2 mw' hs).1 hm

theorem inv_reachable (papi : PathApi) (host : String) (lo hi : Nat)
    (tbp : String) (wv : World) (mw : Manager × World)
    (h : Reachable papi host lo hi tbp wv mw) : Inv mw.1 := by
  unfold Reachable at h
  induction h with
  | refl => exact inv_init host lo hi tbp
  | tail hsteps hstep ih => exact inv_step _ _ _ hstep ih

theorem step_count_mono (papi : PathApi) (mw mw' : Manager × World)
    (h : Step papi mw mw') : mw.1.count ≤ mw'.1.count := by
  cases h with
  | launch bocc ds cfg mw =>
    by_cases hfp : find_port mw.1.port_lo mw.1.port_hi (occupied bocc mw.1) ds 32 < 0
    · rw [launch_eq_fail papi bocc ds mw.1 mw.2 cfg hfp]
    · rw [launch_eq_succ papi bocc ds mw.1 mw.2 cfg hfp]
      exact Nat.le_succ _
  | stop i mw mw' hs =>
    rw [stop_count mw.1 mw.2 i mw' hs]
  | stopAll mw mw' hs =>
    rw [(stopList_elim _ mw.1 mw.2 mw' hs).2.1]

/-! ### stop_all and the failure path of launch -/

theorem stopList_from_keys :
    ∀ (tbs : List (Nat × TensorBoard)) (m : Manager) (w : World), m.tbs = tbs →
      ∃ mw' : Manager × World,
        stopList (tbs.map Prod.fst) m w = some mw' ∧ mw'.1.tbs = [] ∧
        ∀ kv ∈ tbs, ∀ d ∈ mw'.2.dirs, d.path ≠ kv.2.inst.logdir := by
  intro tbs
  induction tbs with
  | nil =>
    intro m w hm
    refine ⟨(m, w), by simp [stopList], hm, ?_⟩
    intro kv hkv
    simp at hkv
  | cons kv rest ih =>
    intro m w hm
    have hfind : m.tbs.find? (fun x => x.1 == kv.1) = some kv := by
      rw [hm]
      simp [List.find?]
    have herase : m.tbs.eraseP (fun x => x.1 == kv.1) = rest := by
      rw [hm, List.eraseP_cons_of_pos]
      simp
    have hstop : stop m w kv.1 =
        some ({ m with tbs := rest },
          rmtree (terminateProc w kv.2.proc) kv.2.inst.logdir) := by
      unfold stop popKey
      rw [hfind, herase]
    rcases ih { m with tbs := rest }
        (rmtree (terminateProc w kv.2.proc) kv.2.inst.logdir) rfl
      with ⟨mw', hsl, hemp, hdirs⟩
    refine ⟨mw', ?_, hemp, ?_⟩
    · rw [List.map_cons, stopList, hstop]
      exact hsl
    · intro kv' hkv' d hd
      rcases List.mem_cons.mp hkv' with rfl | hmem
      · have hsub := (stopList_elim _ _ _ _ hsl).2.2
        have hd2 := hsub.subset hd
        simp only [rmtree, terminateProc, List.mem_filter] at hd2
        simpa using hd2.2
      · exact hdirs kv' hmem d hd

/-- C7: for every registry state, `stop_all` — which snapshots the current
identifiers (`list(self._tbs.keys())`) and calls `stop` on each snapshot
entry in snapshot order — succeeds, leaves the registry empty
(`get_instances` returns the empty sequence), and leaves no log directory
of any previously live instance on disk. -/
theorem stop_all_empties_registry (m : Manager) (w : World) :
    ∃ mw' : Manager × World,
      stop_all m w = some mw' ∧ mw'.1.tbs = [] ∧ get_instances mw'.1 = [] ∧
      ∀ kv ∈ m.tbs, ∀ d ∈ mw'.2.dirs, d.path ≠ kv.2.inst.logdir := by
  rcases stopList_from_keys m.tbs m w rfl with ⟨mw', h1, h2, h3⟩
  exact ⟨mw', h1, h2, by simp [get_instances, h2], h3⟩

/-- C5: when port allocation fails (`_find_port` returned a negative
sentinel), `launch` aborts the single request: the manager is unchanged —
no registry entry is inserted and the identifier counter is not
incremented — and no child process is started (`procs` and the pid supply
are untouched).  The operation returns normally (a printed warning, no
exception). -/
theorem launch_port_exhausted_aborts (papi : PathApi) (bocc : Nat → Bool)
    (ds : Nat → Nat) (m : Manager) (w : World) (cfg : Config)
    (h : find_port m.port_lo m.port_hi (occupied bocc m) ds 32 < 0) :
    (launch papi bocc ds m w cfg).1 = m ∧
    (launch papi bocc ds m w cfg).2.procs = w.procs ∧
    (launch papi bocc ds m w cfg).2.nextPid = w.nextPid := by
  rw [launch_eq_fail papi bocc ds m w cfg h]
  refine ⟨rfl, ?_, ?_⟩ <;> simp [make_logdir]

/-- Witness for `launch_port_exhausted_aborts`: with every port occupied,
the 32 probes all fail and the launch aborts with the fresh manager and
world unchanged. -/
theorem launch_port_exhausted_aborts_witness :
    find_port m0.port_lo m0.port_hi (occupied boccAll m0) ds0 32 < 0 ∧
    ((launch posixApi boccAll ds0 m0 w0 cfg0).1 = m0 ∧
     (launch posixApi boccAll ds0 m0 w0 cfg0).2.procs = w0.procs ∧
     (launch posixApi boccAll ds0 m0 w0 cfg0).2.nextPid = w0.nextPid) :=
  ⟨by decide,
    launch_port_exhausted_aborts posixApi boccAll ds0 m0 w0 cfg0 (by decide)⟩

/-- C10 (implicit): `launch` creates the log directory — a fresh temporary
directory populated with the symlinks — before attempting port allocation,
and an allocation failure does not delete it: the directory remains on
disk (appended to `dirs`, with the mkdtemp supply advanced) even though no
instance is registered for it. -/
theorem launch_fail_leaves_logdir (papi : PathApi) (bocc : Nat → Bool)
    (ds : Nat → Nat) (m : Manager) (w : World) (cfg : Config)
    (h : find_port m.port_lo m.port_hi (occupied bocc m) ds 32 < 0) :
    (launch papi bocc ds m w cfg).1 = m ∧
    (launch papi bocc ds m w cfg).2.dirs =
      w.dirs ++ [{ path := tmpPath w.nextDir,
                   links := makeLogdirLinks papi cfg.paths }] ∧
    (launch papi bocc ds m w cfg).2.nextDir = w.nextDir + 1 := by
  rw [launch_eq_fail papi bocc ds m w cfg h]
  refine ⟨rfl, ?_, ?_⟩ <;> simp [make_logdir]

/-- Witness for `launch_fail_leaves_logdir`: with every port occupied, the
aborted launch still leaves the new directory `/tmp/tb0` on disk. -/
theorem launch_fail_leaves_logdir_witness :
    find_port m0.port_lo m0.port_hi (occupied boccAll m0) ds0 32 < 0 ∧
    ((launch posixApi boccAll ds0 m0 w0 cfg0).1 = m0 ∧
     (launch posixApi boccAll ds0 m0 w0 cfg0).2.dirs =
       w0.dirs ++ [{ path := tmpPath w0.nextDir,
                     links := makeLogdirLinks posixApi cfg0.paths }] ∧
     (launch posixApi boccAll ds0 m0 w0 cfg0).2.nextDir = w0.nextDir + 1) :=
  ⟨by decide,
    launch_fail_leaves_logdir posixApi boccAll ds0 m0 w0 cfg0 (by decide)⟩

/-- C6 (evidence for the code bug): calling `stop` with an identifier that
was never issued — `stop(0)` on a fresh manager, or `stop(5)` when only
identifier 0 was ever issued — takes the `KeyError` path of `dict.pop`
(modelled by `none`): an uncaught exception propagates instead of the
explicit `InstanceNotFound` failure the specification requires.  No
registry mutation happens on this path (the manager value is simply not
replaced). -/
theorem stop_unknown_key_error :
    stop m0 w0 0 = none ∧ stop m1 w0 5 = none := by
  refine ⟨by decide, by decide⟩

/-! ### Port uniqueness and identifier invariants over reachable states -/

/-- C1: in every reachable registry state, the live instances' ports are
pairwise distinct, and a successful port allocation for a launch (the
probe oracle seeing the base occupancy together with the listening live
children) yields a port not equal to the port of any instance live at
that time. -/
theorem port_uniqueness_invariant (papi : PathApi) (host : String)
    (lo hi : Nat) (tbp : String) (wv : World) (m : Manager) (w : World)
    (bocc : Nat → Bool) (ds : Nat → Nat)
    (hr : Reachable papi host lo hi tbp wv (m, w)) :
    (livePorts m).Nodup ∧
    (0 ≤ find_port m.port_lo m.port_hi (occupied bocc m) ds 32 →
      (find_port m.port_lo m.port_hi (occupied bocc m) ds 32).toNat ∉
        livePorts m) := by
  have hinv := inv_reachable papi host lo hi tbp wv (m, w) hr
  refine ⟨hinv.2.2, ?_⟩
  intro hfp
  exact not_mem_livePorts_of_free bocc m _ (find_port_free _ _ _ _ _ hfp)

/-- Witness for `port_uniqueness_invariant`, at the freshly constructed
manager (reachable by the empty trace). -/
theorem port_uniqueness_invariant_witness :
    (livePorts m0).Nodup ∧
    (0 ≤ find_port m0.port_lo m0.port_hi (occupied boccFree m0) ds0 32 →
      (find_port m0.port_lo m0.port_hi (occupied boccFree m0) ds0 32).toNat ∉
        livePorts m0) :=
  port_uniqueness_invariant posixApi host0 8000 9000 tbp0 w0 m0 w0 boccFree ds0
    Relation.ReflTransGen.refl

/-- C9: identifiers come from a strictly increasing counter starting at
zero for the run: the fresh manager's counter is zero, in every reachable
state the live identifiers are pairwise distinct and below the counter, a
successful launch registers exactly one new entry whose identifier is the
current counter value (hence strictly greater than every previously
assigned identifier, as the counter only grows) and increments the
counter, and no supervisor step ever decreases the counter (so identifiers
are never reused within the run). -/
theorem identifier_invariant (papi : PathApi) (host : String) (lo hi : Nat)
    (tbp : String) (wv : World) (m : Manager) (w : World)
    (bocc : Nat → Bool) (ds : Nat → Nat) (cfg : Config)
    (hr : Reachable papi host lo hi tbp wv (m, w)) :
    (initManager host lo hi tbp).count = 0 ∧
    (m.tbs.map fun kv => kv.2.inst.ident).Nodup ∧
    (∀ kv ∈ m.tbs, kv.2.inst.ident < m.count) ∧
    (¬ find_port m.port_lo m.port_hi (occupied bocc m) ds 32 < 0 →
      (launch papi bocc ds m w cfg).1.count = m.count + 1 ∧
      ∃ tb : TensorBoard, tb.inst.ident = m.count ∧
        (launch papi bocc ds m w cfg).1.tbs = m.tbs ++ [(m.count, tb)]) ∧
    (∀ mw1 mw2 : Manager × World, Step papi mw1 mw2 →
      mw1.1.count ≤ mw2.1.count) := by
  have hinv : Inv m := inv_reachable papi host lo hi tbp wv (m, w) hr
  obtain ⟨h1, h2, _⟩ := hinv
  refine ⟨rfl, ?_, ?_, ?_, ?_⟩
  · have hmap : (m.tbs.map fun kv => kv.2.inst.ident) = m.tbs.map Prod.fst := by
      apply List.map_congr_left
      intro kv hkv
      exact (h1 kv hkv).1
    rw [hmap]
    exact h2
  · intro kv hkv
    rcases h1 kv hkv with ⟨hid, hlt⟩
    omega
  · intro h
    refine ⟨launch_count_succ papi bocc ds m w cfg h,
      { inst := { cfg := cfg,
                  ident := m.count,
                  logdir := (make_logdir papi w cfg.paths).1,
                  port := (find_port m.port_lo m.port_hi
                    (occupied bocc m) ds 32).toNat },
        proc := (make_logdir papi w cfg.paths).2.nextPid }, rfl, ?_⟩
    exact launch_tbs_succ papi bocc ds m w cfg h
  · exact fun mw1 mw2 hs => step_count_mono papi mw1 mw2 hs

/-- Witness for `identifier_invariant`, at the freshly constructed manager
(reachable by the empty trace). -/
theorem identifier_invariant_witness :
    (initManager host0 8000 9000 tbp0).count = 0 ∧
    (m0.tbs.map fun kv => kv.2.inst.ident).Nodup ∧
    (∀ kv ∈ m0.tbs, kv.2.inst.ident < m0.count) ∧
    (¬ find_port m0.port_lo m0.port_hi (occupied boccFree m0) ds0 32 < 0 →
      (launch posixApi boccFree ds0 m0 w0 cfg0).1.count = m0.count + 1 ∧
      ∃ tb : TensorBoard, tb.inst.ident = m0.count ∧
        (launch posixApi boccFree ds0 m0 w0 cfg0).1.tbs =
          m0.tbs ++ [(m0.count, tb)]) ∧
    (∀ mw1 mw2 : Manager × World, Step posixApi mw1 mw2 →
      mw1.1.count ≤ mw2.1.count) :=
  identifier_invariant posixApi host0 8000 9000 tbp0 w0 m0 w0 boccFree ds0 cfg0
    Relation.ReflTransGen.refl

/-! ### Persistence round-trip -/

theorem save_launch_ok (papi : PathApi) (bocc : Nat → Bool) (ds : Nat → Nat)
    (m : Manager) (w : World) (cfg : Config)
    (h : launchOkB bocc ds m = true) :
    save (launch papi bocc ds m w cfg).1 = save m ++ [cfg] := by
  have h' : ¬ find_port m.port_lo m.port_hi (occupied bocc m) ds 32 < 0 := by
    simpa [launchOkB] using h
  rw [save, launch_tbs_succ papi bocc ds m w cfg h']
  simp [save]

theorem replay_save (papi : PathApi) (bocc : Nat → Bool)
    (dss : Nat → Nat → Nat) :
    ∀ (data : List Config) (i : Nat) (mw : Manager × World),
      replayOk papi bocc dss data i mw = true →
      save (replay papi bocc dss data i mw).1 = save mw.1 ++ data := by
  intro data
  induction data with
  | nil =>
    intro i mw h
    simp [replay]
  | cons cfg rest ih =>
    intro i mw h
    rw [replayOk, Bool.and_eq_true] at h
    rw [replay, ih (i + 1) _ h.2,
      save_launch_ok papi bocc (dss i) mw.1 mw.2 cfg h.1]
    simp

/-- C8: `save` serializes exactly the `(paths, title)` pairs of the live
instances in registry order, and replaying them into a freshly constructed
manager (counter zero, empty registry) — provided every replayed launch
finds a port — reproduces exactly that sequence of `(paths, title)` pairs
(hence the same multiset), while identifiers, ports and log directories
are assigned afresh; loading an absent backing file leaves the fresh
manager empty. -/
theorem persistence_round_trip (papi : PathApi) (bocc : Nat → Bool)
    (dss : Nat → Nat → Nat) (host : String) (lo hi : Nat) (tbp : String)
    (wv : World) (m : Manager)
    (h : replayOk papi bocc dss (save m) 0 (initManager host lo hi tbp, wv)
      = true) :
    save (loadFile papi bocc dss (some (save m))
        (initManager host lo hi tbp, wv)).1 = save m ∧
    loadFile papi bocc dss none (initManager host lo hi tbp, wv)
      = (initManager host lo hi tbp, wv) ∧
    save (initManager host lo hi tbp) = [] := by
  refine ⟨?_, rfl, rfl⟩
  rw [loadFile, replay_save papi bocc dss (save m) 0 _ h]
  simp [save, initManager]

/-- Witness for `persistence_round_trip`: a manager with one live instance
(`m1`, launched from `cfg0`) saves `[cfg0]`, and replaying that into a
fresh manager with no port contention reproduces `[cfg0]`. -/
theorem persistence_round_trip_witness :
    replayOk posixApi boccFree dss0 (save m1) 0
        (initManager host0 8000 9000 tbp0, w0) = true ∧
    (save (loadFile posixApi boccFree dss0 (some (save m1))
        (initManager host0 8000 9000 tbp0, w0)).1 = save m1 ∧
     loadFile posixApi boccFree dss0 none (initManager host0 8000 9000 tbp0, w0)
       = (initManager host0 8000 9000 tbp0, w0) ∧
     save (initManager host0 8000 9000 tbp0) = []) :=
  ⟨by decide,
    persistence_round_trip posixApi boccFree dss0 host0 8000 9000 tbp0 w0 m1
      (by decide)⟩

end Tbman
